import Mathlib

/-!
# Verification of the encoding-bench LEB128 codec

Shallow embedding of `src/lib.rs` of the `encoding-bench` repository:
positioned buffer writers (`write_to_vec_solo`, `write_slice_to_vec`,
`write_slice_to_vec_skewed`), the four LEB128 encoder strategies
(`write_leb128a/b/c/d`), the five decoder strategies
(`read_leb128_ref/fixed/fixed2/unsafe/weird`) and the lesqlite encoder.

Machine integers are modelled as `Nat` with explicit `% 2^w` where the
source truncates; a Rust `Vec<u8>` is a `List Nat` of values `< 256`;
a panic (or an undefined out-of-bounds access) is modelled as `none` in
`Option`-returning functions.  `usize` is modelled at the source's
64-bit configuration (`target_pointer_width = "64"`).
-/

namespace EncodingBench

/-- The unsigned integer widths the LEB128 macros are instantiated at. -/
inductive Width where
  | u16 | u32 | u64 | u128 | usize
deriving DecidableEq

/-- Bit width of each type (`usize` on the 64-bit target). -/
def bits : Width → Nat
  | .u16 => 16
  | .u32 => 32
  | .u64 => 64
  | .u128 => 128
  | .usize => 64

/-- The `leb128_size!` macro: statically known maximal encoded size
(3 for u16, 5 for u32, 10 for u64, 19 for u128, `USIZE_LEB128_SIZE = 10`). -/
def leb128_size : Width → Nat
  | .u16 => 3
  | .u32 => 5
  | .u64 => 10
  | .u128 => 19
  | .usize => 10

/-- `write_to_vec`: push the byte when `position == vec.len()`, otherwise
overwrite in place.  (In the source an index `position > vec.len()` panics;
`List.set` is a no-op there, so results are only meaningful — and only ever
claimed — for `position ≤ vec.length`.) -/
def write_to_vec (vec : List Nat) (position : Nat) (byte : Nat) : List Nat :=
  if position = vec.length then vec ++ [byte] else vec.set position byte

/-- `write_to_vec_solo`: write the slice one byte at a time through
`write_to_vec`-style overwrite-or-push steps. -/
def write_to_vec_solo (vec : List Nat) (position : Nat) : List Nat → List Nat
  | [] => vec
  | byte :: rest => write_to_vec_solo (write_to_vec vec position byte) (position + 1) rest

/-- `write_slice_to_vec`: bulk split copy.  `copy_from_slice` panics
(modelled `none`) unless the destination `output[start_position..]`
(length `capacity`) and the source `input[..first_half]` have equal length.
(For `start_position > output.len()` the source panics on slicing; that
case is outside every claim.) -/
def write_slice_to_vec (output : List Nat) (start_position : Nat) (input : List Nat) :
    Option (List Nat) :=
  let input_len := input.length
  let capacity := output.length - start_position
  let first_half := min capacity input_len
  if 0 < first_half then
    if capacity = first_half then
      let copied := output.take start_position ++ input.take first_half
      some (if first_half < input_len then copied ++ input.drop first_half else copied)
    else none
  else
    some (if first_half < input_len then output ++ input.drop first_half else output)

/-- `write_slice_to_vec_cold`: textually identical body to
`write_slice_to_vec`, kept separate in the source as the non-inlined
fallback. -/
def write_slice_to_vec_cold (output : List Nat) (start_position : Nat) (input : List Nat) :
    Option (List Nat) :=
  let input_len := input.length
  let capacity := output.length - start_position
  let first_half := min capacity input_len
  if 0 < first_half then
    if capacity = first_half then
      let copied := output.take start_position ++ input.take first_half
      some (if first_half < input_len then copied ++ input.drop first_half else copied)
    else none
  else
    some (if first_half < input_len then output ++ input.drop first_half else output)

/-- `write_slice_to_vec_skewed`: pure-append fast path, cold fallback. -/
def write_slice_to_vec_skewed (output : List Nat) (start_position : Nat) (input : List Nat) :
    Option (List Nat) :=
  if start_position = output.length then some (output ++ input)
  else write_slice_to_vec_cold output start_position input

/-- Loop body of `impl_write_unsigned_leb128a` (the reference encoder):
emit `(value as u8) & 0x7F`, shift by 7, set the continuation bit and
continue while the shifted value is nonzero. -/
def write_leb128a_go (out : List Nat) (start_position position value : Nat) :
    List Nat × Nat :=
  let byte := (value % 256) &&& 0x7F
  let value' := value >>> 7
  if value' = 0 then
    (write_to_vec out position byte, (1 + position) - start_position)
  else
    write_leb128a_go (write_to_vec out position (byte ||| 0x80)) start_position
      (position + 1) value'
termination_by value
decreasing_by
  rename_i h
  have hv : 0 < value := Nat.pos_of_ne_zero fun h0 => h (by subst h0; rfl)
  simpa [Nat.shiftRight_eq_div_pow] using Nat.div_lt_self hv (by norm_num)

/-- `write_leb128a_*` (reference loop encoder): the loop is independent of
the integer width, which only bounds the input value. -/
def write_leb128a (out : List Nat) (start_position value : Nat) : List Nat × Nat :=
  write_leb128a_go out start_position start_position value

/-- Loop of `impl_write_unsigned_leb128b`, fuel = the `leb128_size!` bound
of the `for` loop.  Running out of fuel models normal `for`-loop exit. -/
def write_leb128b_go : Nat → List Nat → Nat → Nat → List Nat × Nat
  | 0, out, position, _ => (out, position)
  | fuel + 1, out, position, value =>
    let byte0 := value &&& 0x7F
    let value' := value >>> 7
    let byte := if value' ≠ 0 then byte0 ||| 0x80 else byte0
    let out' := write_to_vec out position byte
    if value' = 0 then (out', position + 1)
    else write_leb128b_go fuel out' (position + 1) value'

/-- `write_leb128b_*_solo` (fixed-iteration encoder).  The source
initialises `let mut position = 0;`, so `start_position` is ignored and
bytes land at absolute offsets `0, 1, …`. -/
def write_leb128b (w : Width) (out : List Nat) (start_position value : Nat) :
    List Nat × Nat :=
  write_leb128b_go (leb128_size w) out 0 value

/-- `write_unsigned_leb128_to`: the callback-style core, generic over the
byte sink `write` (state `σ`, index, byte). -/
def write_unsigned_leb128_to {σ : Type} (write : σ → Nat → Nat → σ)
    (value position : Nat) (s : σ) : σ × Nat :=
  let byte0 := value &&& 0x7F
  let value' := value >>> 7
  let byte := if value' ≠ 0 then byte0 ||| 0x80 else byte0
  let s' := write s position byte
  if value' = 0 then (s', position + 1)
  else write_unsigned_leb128_to write value' (position + 1) s'
termination_by value
decreasing_by
  rename_i h
  have hv : 0 < value := Nat.pos_of_ne_zero fun h0 => h (by subst h0; rfl)
  simpa [Nat.shiftRight_eq_div_pow] using Nat.div_lt_self hv (by norm_num)

/-- `write_leb128c_*`: the callback core with the sink
`|i, v| write_to_vec(out, start_position + i, v)`. -/
def write_leb128c (out : List Nat) (start_position value : Nat) : List Nat × Nat :=
  write_unsigned_leb128_to
    (fun s i v => write_to_vec s (start_position + i) v) value 0 out

/-- Loop of `impl_write_unsigned_leb128d`: unchecked in-place writes
(`*out.get_unchecked_mut(position) = byte`) into reserved capacity,
modelled by `List.set` on the buffer extended with the spare capacity. -/
def write_leb128d_go : Nat → List Nat → Nat → Nat → List Nat × Nat
  | 0, mem, position, _ => (mem, position)
  | fuel + 1, mem, position, value =>
    let byte0 := value &&& 0x7F
    let value' := value >>> 7
    let byte := if value' ≠ 0 then byte0 ||| 0x80 else byte0
    let mem' := mem.set position byte
    if value' = 0 then (mem', position + 1)
    else write_leb128d_go fuel mem' (position + 1) value'

/-- `write_leb128d_*` (unchecked/reserved-capacity encoder).
`out.reserve(leb128_size!)` guarantees spare capacity whose unspecified
contents are the parameter `junk` (theorems require
`leb128_size w ≤ junk.length`); `set_len` is modelled by `List.take` of
the final logical length, with `saturating_sub` being `Nat` subtraction. -/
def write_leb128d (w : Width) (junk out : List Nat) (start_position value : Nat) :
    List Nat × Nat :=
  let mem := out ++ junk
  let r := write_leb128d_go (leb128_size w) mem start_position value
  let position := r.2
  let bytes_written := position - start_position
  let initial_len := out.length
  let final_len :=
    if start_position = initial_len then initial_len + bytes_written
    else initial_len + (bytes_written - (initial_len - start_position))
  (r.1.take final_len, bytes_written)

/-- The four encoder strategies of §4.3. -/
inductive Enc where
  | a | b | c | d
deriving DecidableEq

/-- Run one encoder strategy.  `junk` is the unspecified reserved-capacity
contents used only by strategy `d`. -/
def runEnc : Enc → Width → List Nat → List Nat → Nat → Nat → List Nat × Nat
  | .a, _, _, out, start_position, value => write_leb128a out start_position value
  | .b, w, _, out, start_position, value => write_leb128b w out start_position value
  | .c, _, _, out, start_position, value => write_leb128c out start_position value
  | .d, w, junk, out, start_position, value => write_leb128d w junk out start_position value

/-- Loop of `read_unsigned_leb128_ref`, recursing on the slice suffix
from the current position.  Reading past the end of the slice panics
(`none`); a shift amount reaching 128 overflows the `u128` shift
(`none`). -/
def read_unsigned_leb128_ref_go : List Nat → Nat → Nat → Option (Nat × Nat)
  | [], _, _ => none
  | byte :: rest, shift, result =>
    if 128 ≤ shift then none
    else
      let result' := result ||| ((byte &&& 0x7F) <<< shift) % 2 ^ 128
      if byte &&& 0x80 = 0 then some (result', 1)
      else
        match read_unsigned_leb128_ref_go rest (shift + 7) result' with
        | none => none
        | some (v, k) => some (v, k + 1)

/-- `read_leb128_ref_*`: accumulate in `u128`, then `val as $int_ty`. -/
def read_leb128_ref (w : Width) (data : List Nat) (start_position : Nat) :
    Option (Nat × Nat) :=
  (read_unsigned_leb128_ref_go (data.drop start_position) 0 0).map
    (fun p => (p.1 % 2 ^ bits w, p.2))

/-- Shared loop of the three fuel-bounded decoders
(`read_leb128_fixed/fixed2/unsafe`): the accumulator is truncated at
`2 ^ e` (`e = 128` for the widened `u128` accumulator of `fixed`,
`e = bits w` for the direct-width accumulators of `fixed2` and
`unsafe`); fuel is the `leb128_size!` loop bound, and running out of
fuel models normal `for`-loop exit with the bytes consumed so far. -/
def read_leb128_fixed_go (e : Nat) : Nat → List Nat → Nat → Nat → Option (Nat × Nat)
  | 0, _, _, result => some (result, 0)
  | fuel + 1, data, shift, result =>
    match data with
    | [] => none
    | byte :: rest =>
      let result' := result ||| ((byte &&& 0x7F) <<< shift) % 2 ^ e
      if byte &&& 0x80 = 0 then some (result', 1)
      else
        match read_leb128_fixed_go e fuel rest (shift + 7) result' with
        | none => none
        | some (v, k) => some (v, k + 1)

/-- `read_leb128_fixed_*`: u128 accumulator, truncated to the width at
the end (`result as $int_ty`). -/
def read_leb128_fixed (w : Width) (data : List Nat) (start_position : Nat) :
    Option (Nat × Nat) :=
  (read_leb128_fixed_go 128 (leb128_size w) (data.drop start_position) 0 0).map
    (fun p => (p.1 % 2 ^ bits w, p.2))

/-- `read_leb128_fixed2_*`: accumulates directly in the target width. -/
def read_leb128_fixed2 (w : Width) (data : List Nat) (start_position : Nat) :
    Option (Nat × Nat) :=
  read_leb128_fixed_go (bits w) (leb128_size w) (data.drop start_position) 0 0

/-- `read_leb128_unsafe_*`: same loop as `fixed2` but with
`get_unchecked` reads (an out-of-bounds unchecked read is undefined,
modelled `none`) and the trailing `assert!(position <= data.len())`. -/
def read_leb128_unchecked (w : Width) (data : List Nat) (start_position : Nat) :
    Option (Nat × Nat) :=
  match read_leb128_fixed_go (bits w) (leb128_size w) (data.drop start_position) 0 0 with
  | none => none
  | some (v, k) => if start_position + k ≤ data.length then some (v, k) else none

/-- Loop of `impl_read_unsigned_leb128_weird`: always runs
`leb128_size!` iterations; `mult = byte >> 7` advances `position` and
`shift` only on continuation bytes, re-reading the terminal byte on the
remaining iterations.  Unchecked out-of-bounds reads and a shift amount
reaching the width are undefined/panicking (`none`). -/
def read_leb128_weird_go (e : Nat) : Nat → List Nat → Nat → Nat → Nat → Option (Nat × Nat)
  | 0, _, position, _, result => some (result, position)
  | fuel + 1, data, position, shift, result =>
    match data[position]? with
    | none => none
    | some byte =>
      let mult := byte >>> 7
      if e ≤ shift then none
      else
        let result' := result ||| ((byte &&& 0x7F) <<< shift) % 2 ^ e
        read_leb128_weird_go e fuel data (position + mult) (shift + 7 * mult) result'

/-- `read_leb128_weird_*`: branch-free loop, then one unconditional
position increment and `assert!(position <= data.len())`. -/
def read_leb128_weird (w : Width) (data : List Nat) (start_position : Nat) :
    Option (Nat × Nat) :=
  match read_leb128_weird_go (bits w) (leb128_size w) data start_position 0 0 with
  | none => none
  | some (result, position) =>
    if position + 1 ≤ data.length then some (result, position + 1 - start_position)
    else none

/-- The five decoder strategies of §4.4. -/
inductive Dec where
  | ref | fixed | fixed2 | unchecked | weird
deriving DecidableEq

/-- Run one decoder strategy. -/
def runDec : Dec → Width → List Nat → Nat → Option (Nat × Nat)
  | .ref, w, data, s => read_leb128_ref w data s
  | .fixed, w, data, s => read_leb128_fixed w data s
  | .fixed2, w, data, s => read_leb128_fixed2 w data s
  | .unchecked, w, data, s => read_leb128_unchecked w data s
  | .weird, w, data, s => read_leb128_weird w data s

/-- The first `count` little-endian bytes of `value`, modelling the raw
byte view of `value.to_le()` in the lesqlite encoder. -/
def leBytes : Nat → Nat → List Nat
  | _, 0 => []
  | value, count + 1 => value % 256 :: leBytes (value / 256) count

/-- Bit length (position of the highest set bit plus one), computed with
structural fuel so that it evaluates by `decide`.  `bitLen v v` is the
`bit_length` of the spec (`0` for `v = 0`). -/
def bitLen : Nat → Nat → Nat
  | 0, _ => 0
  | fuel + 1, v => if v = 0 then 0 else bitLen fuel (v / 2) + 1

/-- `bit_length(v)`: number of significant bits of `v`. -/
def bit_length (v : Nat) : Nat := bitLen v v

/-- `impl_write_unsigned_lesqlite` (for `u32` and `usize`): one byte
below `CUT1 = 185`, a biased two-byte pair up to
`CUT1 + 255 + 256*(CUT2 - 1 - CUT1)` with `CUT2 = 249`, otherwise a tag
byte `CUT2 + (bytes - 2)` followed by the `bytes` little-endian
significant bytes (written through `write_slice_to_vec_skewed`, whose
panic propagates as `none`).  `u8` casts and additions are `% 256`. -/
def impl_write_unsigned_lesqlite (w : Width) (out : List Nat)
    (start_position value : Nat) : Option (List Nat × Nat) :=
  if value < 185 then
    some (write_to_vec out start_position (value % 256), 1)
  else if value ≤ 185 + 255 + 256 * (249 - 1 - 185) then
    let v := value - 185
    some (write_to_vec (write_to_vec out start_position ((185 + (v >>> 8) % 256) % 256))
      (start_position + 1) (v % 256), 2)
  else
    let leading_zeros := bits w - bit_length value
    let bitCount := bits w - leading_zeros
    let bytes := (bitCount + 7) / 8
    let out1 := write_to_vec out start_position ((249 + (bytes - 2) % 256) % 256)
    match write_slice_to_vec_skewed out1 (start_position + 1) (leBytes value bytes) with
    | none => none
    | some out2 => some (out2, bytes + 1)

/-- The canonical LEB128 byte sequence of a value: low 7 bits first, the
continuation bit `0x80` on every byte except the last. -/
def leb128Bytes (v : Nat) : List Nat :=
  if h : v < 128 then [v] else (v % 128 + 128) :: leb128Bytes (v / 128)
termination_by v
decreasing_by
  exact Nat.div_lt_self (by omega) (by norm_num)

/-! ## Bitwise bridge lemmas -/

theorem land_127_eq_mod (x : Nat) : x &&& 127 = x % 128 := by
  have h := Nat.and_pow_two_sub_one_eq_mod x 7
  norm_num at h
  exact h

theorem land_128_of_lt {x : Nat} (h : x < 128) : x &&& 128 = 0 := by
  have h2 : x &&& 2 ^ 7 = (x.testBit 7).toNat * 2 ^ 7 := Nat.and_two_pow x 7
  have h3 : x.testBit 7 = false := Nat.testBit_lt_two_pow (by norm_num at *; omega)
  rw [h3] at h2
  norm_num at h2
  exact h2

theorem land_128_of_add {x : Nat} (h : x < 128) : (x + 128) &&& 128 = 128 := by
  have h2 : (x + 128) &&& 2 ^ 7 = ((x + 128).testBit 7).toNat * 2 ^ 7 :=
    Nat.and_two_pow (x + 128) 7
  have h3 : (x + 128).testBit 7 = true := by
    rw [Nat.testBit_to_div_mod]
    have hd : (x + 128) / 128 = 1 := by omega
    norm_num [hd]
  rw [h3] at h2
  norm_num at h2
  exact h2

theorem or_mul_pow_add {a : Nat} (b k : Nat) (h : a < 2 ^ k) :
    a ||| b * 2 ^ k = a + b * 2 ^ k := by
  induction k generalizing a b with
  | zero =>
    have ha : a = 0 := by omega
    subst ha
    simp
  | succ k ih =>
    have hb2 : b * 2 ^ (k + 1) = (b * 2 ^ k) * 2 := by ring
    have hdiv : (a ||| b * 2 ^ (k + 1)) / 2 = a / 2 ||| b * 2 ^ k := by
      rw [Nat.or_div_two, hb2, Nat.mul_div_cancel _ (by norm_num)]
    have heven : b * 2 ^ (k + 1) % 2 = 0 := by
      rw [hb2]
      exact Nat.mul_mod_left _ _
    have hor : ((a ||| b * 2 ^ (k + 1)) % 2 = 1) ↔
        (a % 2 = 1 ∨ b * 2 ^ (k + 1) % 2 = 1) := Nat.or_mod_two_eq_one
    have hmod : (a ||| b * 2 ^ (k + 1)) % 2 = a % 2 := by
      rcases Nat.mod_two_eq_zero_or_one a with h2 | h2
      · rcases Nat.mod_two_eq_zero_or_one (a ||| b * 2 ^ (k + 1)) with h1 | h1
        · omega
        · exfalso
          rcases hor.mp h1 with hc | hc <;> omega
      · rw [hor.mpr (Or.inl h2), h2]
    have ha2 : a / 2 < 2 ^ k := by
      rw [pow_succ] at h
      omega
    have hrec := ih b ha2
    have hsplit := (Nat.div_add_mod (a ||| b * 2 ^ (k + 1)) 2).symm
    rw [hdiv, hmod, hrec] at hsplit
    have hself := Nat.div_add_mod a 2
    rw [hb2] at *
    omega

theorem shiftRight_7 (x : Nat) : x >>> 7 = x / 128 :=
  Nat.shiftRight_eq_div_pow x 7

theorem shiftLeft_mul (x k : Nat) : x <<< k = x * 2 ^ k := Nat.shiftLeft_eq x k

/-! ## Canonical byte list facts -/

theorem leb128Bytes_of_lt {v : Nat} (h : v < 128) : leb128Bytes v = [v] := by
  rw [leb128Bytes]
  simp [h]

theorem leb128Bytes_of_ge {v : Nat} (h : 128 ≤ v) :
    leb128Bytes v = (v % 128 + 128) :: leb128Bytes (v / 128) := by
  rw [leb128Bytes]
  simp [Nat.not_lt.mpr h]

theorem leb128Bytes_length_pos (v : Nat) : 1 ≤ (leb128Bytes v).length := by
  by_cases h : v < 128
  · simp [leb128Bytes_of_lt h]
  · simp [leb128Bytes_of_ge (Nat.not_lt.mp h)]

theorem leb128Bytes_length_le_aux : ∀ k v, v < 2 ^ (7 * (k + 1)) →
    (leb128Bytes v).length ≤ k + 1 := by
  intro k
  induction k with
  | zero =>
    intro v hv
    norm_num at hv
    simp [leb128Bytes_of_lt hv]
  | succ k ih =>
    intro v hv
    by_cases h : v < 128
    · simp [leb128Bytes_of_lt h]
    · rw [leb128Bytes_of_ge (Nat.not_lt.mp h)]
      have hdiv : v / 128 < 2 ^ (7 * (k + 1)) := by
        have : (7 : Nat) * (k + 1 + 1) = 7 * (k + 1) + 7 := by ring
        rw [this, pow_add] at hv
        norm_num at hv
        omega
      simpa using ih (v / 128) hdiv

theorem leb128Bytes_length_le {w : Width} {v : Nat} (hv : v < 2 ^ bits w) :
    (leb128Bytes v).length ≤ leb128_size w := by
  have h : v < 2 ^ (7 * leb128_size w) := by
    calc v < 2 ^ bits w := hv
    _ ≤ 2 ^ (7 * leb128_size w) :=
      Nat.pow_le_pow_right (by norm_num) (by cases w <;> simp [bits, leb128_size])
  cases w <;> exact leb128Bytes_length_le_aux _ v h

theorem bits_le_128 (w : Width) : bits w ≤ 128 := by
  cases w <;> simp [bits]

/-! ## Bit length -/

theorem bitLen_zero (fuel : Nat) : bitLen fuel 0 = 0 := by
  cases fuel <;> rfl

theorem bitLen_congr : ∀ f g v : Nat, v ≤ f → v ≤ g → bitLen f v = bitLen g v := by
  intro f
  induction f with
  | zero =>
    intro g v hf _
    have hv : v = 0 := by omega
    subst hv
    rw [bitLen_zero, bitLen_zero]
  | succ f ih =>
    intro g v hf hg
    rcases Nat.eq_zero_or_pos v with hv | hv
    · subst hv
      rw [bitLen_zero, bitLen_zero]
    · obtain ⟨g', rfl⟩ : ∃ g', g = g' + 1 := ⟨g - 1, by omega⟩
      show (if v = 0 then 0 else bitLen f (v / 2) + 1) =
        (if v = 0 then 0 else bitLen g' (v / 2) + 1)
      rw [if_neg (by omega), if_neg (by omega)]
      have hlt : v / 2 < v := Nat.div_lt_self hv (by norm_num)
      rw [ih g' (v / 2) (by omega) (by omega)]

theorem bit_length_succ {v : Nat} (hv : 0 < v) :
    bit_length v = bit_length (v / 2) + 1 := by
  obtain ⟨m, rfl⟩ : ∃ m, v = m + 1 := ⟨v - 1, by omega⟩
  show bitLen (m + 1) (m + 1) = bitLen ((m + 1) / 2) ((m + 1) / 2) + 1
  have h1 : bitLen (m + 1) (m + 1) = bitLen m ((m + 1) / 2) + 1 := by
    show (if m + 1 = 0 then 0 else bitLen m ((m + 1) / 2) + 1) = _
    rw [if_neg (by omega)]
  rw [h1, bitLen_congr m ((m + 1) / 2) ((m + 1) / 2) (by omega) le_rfl]

theorem bit_length_le_iff : ∀ v k : Nat, bit_length v ≤ k ↔ v < 2 ^ k := by
  intro v
  induction v using Nat.strong_induction_on with
  | _ v ih =>
    intro k
    rcases Nat.eq_zero_or_pos v with hv | hv
    · subst hv
      show bitLen 0 0 ≤ k ↔ _
      simp [bitLen, Nat.pos_pow_of_pos]
    · rw [bit_length_succ hv]
      cases k with
      | zero =>
        constructor
        · omega
        · intro h
          omega
      | succ k =>
        rw [Nat.succ_le_succ_iff, ih (v / 2) (Nat.div_lt_self hv (by norm_num)) k]
        rw [pow_succ]
        omega

theorem bit_length_div128 {v : Nat} (hv : 128 ≤ v) :
    bit_length v = bit_length (v / 128) + 7 := by
  have hbl1 : 1 ≤ bit_length (v / 128) := by
    by_contra h
    push_neg at h
    have := (bit_length_le_iff (v / 128) 0).mp (by omega)
    norm_num at this
    omega
  have h1 : bit_length v ≤ bit_length (v / 128) + 7 := by
    rw [bit_length_le_iff]
    have h2 : v / 128 < 2 ^ bit_length (v / 128) :=
      (bit_length_le_iff (v / 128) _).mp le_rfl
    calc v < 128 * (v / 128) + 128 := by omega
    _ = 128 * (v / 128 + 1) := by ring
    _ ≤ 128 * 2 ^ bit_length (v / 128) := by
      have : v / 128 + 1 ≤ 2 ^ bit_length (v / 128) := by omega
      exact Nat.mul_le_mul_left _ this
    _ = 2 ^ (bit_length (v / 128) + 7) := by
      rw [pow_add]
      ring
  have h2 : bit_length (v / 128) + 7 ≤ bit_length v := by
    have h3 : ¬ v / 128 < 2 ^ (bit_length (v / 128) - 1) := by
      intro hc
      have := (bit_length_le_iff (v / 128) _).mpr hc
      omega
    push_neg at h3
    have h4 : 2 ^ (bit_length (v / 128) - 1 + 7) ≤ v := by
      rw [pow_add]
      have h5 : 2 ^ (bit_length (v / 128) - 1) * 128 ≤ v :=
        Nat.le_of_lt_succ (by
          have := (Nat.le_div_iff_mul_le (by norm_num : (0:Nat) < 128)).mp h3
          omega)
      norm_num
      omega
    have h6 : ¬ bit_length v ≤ bit_length (v / 128) - 1 + 7 := by
      intro hc
      have := (bit_length_le_iff v _).mp hc
      omega
    omega
  omega

theorem leb128Bytes_length_eq (v : Nat) :
    (leb128Bytes v).length = max 1 ((bit_length v + 6) / 7) := by
  induction v using Nat.strong_induction_on with
  | _ v ih =>
    by_cases h : v < 128
    · rw [leb128Bytes_of_lt h]
      have hbl : bit_length v ≤ 7 := (bit_length_le_iff v 7).mpr (by norm_num; omega)
      have : (bit_length v + 6) / 7 ≤ 1 := by
        calc (bit_length v + 6) / 7 ≤ 13 / 7 := Nat.div_le_div_right (by omega)
        _ = 1 := by norm_num
      simp
      omega
    · push_neg at h
      rw [leb128Bytes_of_ge h, List.length_cons,
        ih (v / 128) (Nat.div_lt_self (by omega) (by norm_num)),
        bit_length_div128 h]
      have hbl1 : 1 ≤ bit_length (v / 128) := by
        by_contra hc
        push_neg at hc
        have := (bit_length_le_iff (v / 128) 0).mp (by omega)
        norm_num at this
        omega
      have hq : (bit_length (v / 128) + 6) / 7 + 1 = (bit_length (v / 128) + 7 + 6) / 7 := by
        rw [Nat.add_right_comm (bit_length (v / 128)) 7 6, Nat.add_div_right _ (by norm_num)]
      have hone : 1 ≤ (bit_length (v / 128) + 6) / 7 :=
        (Nat.one_le_div_iff (by norm_num)).mpr (by omega)
      omega

/-! ## Positioned-write characterization -/

theorem write_to_vec_solo_nil (vec : List Nat) (p : Nat) :
    write_to_vec_solo vec p [] = vec := rfl

theorem write_to_vec_solo_cons (vec : List Nat) (p b : Nat) (rest : List Nat) :
    write_to_vec_solo vec p (b :: rest) =
      write_to_vec_solo (write_to_vec vec p b) (p + 1) rest := rfl

theorem write_to_vec_solo_eq : ∀ (bs : List Nat) (out : List Nat) (p : Nat),
    p ≤ out.length →
    write_to_vec_solo out p bs = out.take p ++ bs ++ out.drop (p + bs.length) := by
  intro bs
  induction bs with
  | nil =>
    intro out p _
    rw [write_to_vec_solo_nil]
    simp
  | cons b rest ih =>
    intro out p hp
    rw [write_to_vec_solo_cons]
    rcases Nat.lt_or_ge p out.length with h1 | h1
    · have hset : write_to_vec out p b = out.take p ++ b :: out.drop (p + 1) := by
        rw [write_to_vec, if_neg (by omega), List.set_eq_take_cons_drop b h1]
      have hwlen : (write_to_vec out p b).length = out.length := by
        rw [write_to_vec, if_neg (by omega)]
        simp
      rw [ih (write_to_vec out p b) (p + 1) (by omega), hset]
      have hA : (out.take p).length = p := by simp; omega
      have htake : (out.take p ++ b :: out.drop (p + 1)).take (p + 1) =
          out.take p ++ [b] := by
        rw [List.take_append_eq_append_take, hA,
          List.take_of_length_le (le_of_eq_of_le hA (by omega))]
        have h3 : p + 1 - p = 1 := by omega
        rw [h3]
        rfl
      have hdrop : (out.take p ++ b :: out.drop (p + 1)).drop (p + 1 + rest.length) =
          out.drop (p + (b :: rest).length) := by
        rw [List.drop_append_eq_append_drop, hA,
          List.drop_eq_nil_of_le (le_of_eq_of_le hA (by omega))]
        have h3 : p + 1 + rest.length - p = rest.length + 1 := by omega
        rw [h3, List.nil_append, List.drop_succ_cons, List.drop_drop]
        congr 1
        simp
        omega
      rw [htake, hdrop]
      simp
    · have hpe : p = out.length := by omega
      have hset : write_to_vec out p b = out ++ [b] := by
        rw [write_to_vec, if_pos hpe]
      rw [ih (write_to_vec out p b) (p + 1) (by rw [hset]; simp; omega), hset]
      subst hpe
      rw [List.take_of_length_le (by simp),
        List.drop_eq_nil_of_le (by simp),
        List.take_of_length_le le_rfl,
        List.drop_eq_nil_of_le (by simp)]
      simp

theorem write_to_vec_solo_length (bs out : List Nat) (p : Nat) (hp : p ≤ out.length) :
    (write_to_vec_solo out p bs).length = max out.length (p + bs.length) := by
  rw [write_to_vec_solo_eq bs out p hp]
  simp
  omega

/-! ## Encoder characterizations -/

theorem write_leb128a_go_eq : ∀ v out start p,
    write_leb128a_go out start p v =
      (write_to_vec_solo out p (leb128Bytes v),
        p + (leb128Bytes v).length - start) := by
  intro v
  induction v using Nat.strong_induction_on with
  | _ v ih =>
    intro out start p
    by_cases h : v < 128
    · have hv7 : v >>> 7 = 0 := by rw [shiftRight_7]; omega
      have hbyte : (v % 256) &&& 127 = v := by
        rw [land_127_eq_mod, Nat.mod_mod_of_dvd v (by norm_num : (128:Nat) ∣ 256)]
        omega
      rw [write_leb128a_go]
      try dsimp only
      rw [if_pos hv7, hbyte, leb128Bytes_of_lt h]
      refine Prod.ext ?_ ?_
      · show write_to_vec out p v = write_to_vec_solo out p [v]
        rw [write_to_vec_solo_cons, write_to_vec_solo_nil]
      · show 1 + p - start = p + [v].length - start
        simp
        omega
    · push_neg at h
      have hv7 : v >>> 7 = v / 128 := shiftRight_7 v
      have hne : ¬ v >>> 7 = 0 := by rw [hv7]; omega
      have hbyte : ((v % 256) &&& 127) ||| 128 = v % 128 + 128 := by
        rw [land_127_eq_mod, Nat.mod_mod_of_dvd v (by norm_num : (128:Nat) ∣ 256)]
        have := or_mul_pow_add (a := v % 128) 1 7 (by omega)
        norm_num at this
        exact this
      rw [write_leb128a_go]
      try dsimp only
      rw [if_neg hne, hbyte, hv7,
        ih (v / 128) (Nat.div_lt_self (by omega) (by norm_num)) _ start (p + 1),
        leb128Bytes_of_ge h]
      refine Prod.ext ?_ ?_
      · show write_to_vec_solo (write_to_vec out p (v % 128 + 128)) (p + 1)
          (leb128Bytes (v / 128)) =
          write_to_vec_solo out p ((v % 128 + 128) :: leb128Bytes (v / 128))
        rw [write_to_vec_solo_cons]
      · show p + 1 + (leb128Bytes (v / 128)).length - start =
          p + ((v % 128 + 128) :: leb128Bytes (v / 128)).length - start
        simp
        omega

theorem write_leb128a_eq (out : List Nat) (start v : Nat) :
    write_leb128a out start v =
      (write_to_vec_solo out start (leb128Bytes v), (leb128Bytes v).length) := by
  rw [write_leb128a, write_leb128a_go_eq]
  congr 1
  omega

theorem write_leb128b_go_eq : ∀ v fuel out p, (leb128Bytes v).length ≤ fuel →
    write_leb128b_go fuel out p v =
      (write_to_vec_solo out p (leb128Bytes v), p + (leb128Bytes v).length) := by
  intro v
  induction v using Nat.strong_induction_on with
  | _ v ih =>
    intro fuel out p hfuel
    have hpos := leb128Bytes_length_pos v
    obtain ⟨f, rfl⟩ : ∃ f, fuel = f + 1 := ⟨fuel - 1, by omega⟩
    by_cases h : v < 128
    · have hv7 : v >>> 7 = 0 := by rw [shiftRight_7]; omega
      have hbyte : v &&& 127 = v := by
        rw [land_127_eq_mod]
        omega
      have hc1 : ¬ (v >>> 7 ≠ 0) := fun hc => hc hv7
      simp only [write_leb128b_go]
      rw [if_neg hc1, if_pos hv7, hbyte, leb128Bytes_of_lt h]
      refine Prod.ext ?_ ?_
      · show write_to_vec out p v = write_to_vec_solo out p [v]
        rw [write_to_vec_solo_cons, write_to_vec_solo_nil]
      · show p + 1 = p + [v].length
        simp
    · push_neg at h
      have hv7 : v >>> 7 = v / 128 := shiftRight_7 v
      have hne : ¬ v >>> 7 = 0 := by rw [hv7]; omega
      have hbyte : (v &&& 127) ||| 128 = v % 128 + 128 := by
        rw [land_127_eq_mod]
        have := or_mul_pow_add (a := v % 128) 1 7 (by omega)
        norm_num at this
        exact this
      have hlen : (leb128Bytes (v / 128)).length ≤ f := by
        rw [leb128Bytes_of_ge h] at hfuel
        simp at hfuel
        omega
      simp only [write_leb128b_go]
      rw [if_pos hne, if_neg hne, hbyte, hv7,
        ih (v / 128) (Nat.div_lt_self (by omega) (by norm_num)) f _ _ hlen,
        leb128Bytes_of_ge h]
      refine Prod.ext ?_ ?_
      · show write_to_vec_solo (write_to_vec out p (v % 128 + 128)) (p + 1)
          (leb128Bytes (v / 128)) =
          write_to_vec_solo out p ((v % 128 + 128) :: leb128Bytes (v / 128))
        rw [write_to_vec_solo_cons]
      · show p + 1 + (leb128Bytes (v / 128)).length =
          p + ((v % 128 + 128) :: leb128Bytes (v / 128)).length
        simp
        omega

theorem write_leb128b_eq (w : Width) (out : List Nat) (start v : Nat)
    (h : (leb128Bytes v).length ≤ leb128_size w) :
    write_leb128b w out start v =
      (write_to_vec_solo out 0 (leb128Bytes v), (leb128Bytes v).length) := by
  rw [write_leb128b, write_leb128b_go_eq v _ _ _ h]
  simp

theorem write_unsigned_leb128_to_eq : ∀ v start (out : List Nat) (i : Nat),
    write_unsigned_leb128_to (fun s j b => write_to_vec s (start + j) b) v i out =
      (write_to_vec_solo out (start + i) (leb128Bytes v),
        i + (leb128Bytes v).length) := by
  intro v
  induction v using Nat.strong_induction_on with
  | _ v ih =>
    intro start out i
    by_cases h : v < 128
    · have hv7 : v >>> 7 = 0 := by rw [shiftRight_7]; omega
      have hbyte : v &&& 127 = v := by
        rw [land_127_eq_mod]
        omega
      have hc1 : ¬ (v >>> 7 ≠ 0) := fun hc => hc hv7
      rw [write_unsigned_leb128_to]
      try dsimp only
      rw [if_neg hc1, if_pos hv7, hbyte, leb128Bytes_of_lt h]
      refine Prod.ext ?_ ?_
      · show write_to_vec out (start + i) v = write_to_vec_solo out (start + i) [v]
        rw [write_to_vec_solo_cons, write_to_vec_solo_nil]
      · show i + 1 = i + [v].length
        simp
    · push_neg at h
      have hv7 : v >>> 7 = v / 128 := shiftRight_7 v
      have hne : ¬ v >>> 7 = 0 := by rw [hv7]; omega
      have hbyte : (v &&& 127) ||| 128 = v % 128 + 128 := by
        rw [land_127_eq_mod]
        have := or_mul_pow_add (a := v % 128) 1 7 (by omega)
        norm_num at this
        exact this
      rw [write_unsigned_leb128_to]
      try dsimp only
      rw [if_pos hne, if_neg hne, hbyte, hv7,
        ih (v / 128) (Nat.div_lt_self (by omega) (by norm_num)) start _ (i + 1),
        leb128Bytes_of_ge h]
      refine Prod.ext ?_ ?_
      · show write_to_vec_solo (write_to_vec out (start + i) (v % 128 + 128))
          (start + (i + 1)) (leb128Bytes (v / 128)) =
          write_to_vec_solo out (start + i) ((v % 128 + 128) :: leb128Bytes (v / 128))
        rw [write_to_vec_solo_cons]
        have harg : start + (i + 1) = start + i + 1 := by omega
        rw [harg]
      · show i + 1 + (leb128Bytes (v / 128)).length =
          i + ((v % 128 + 128) :: leb128Bytes (v / 128)).length
        simp
        omega

theorem write_leb128c_eq (out : List Nat) (start v : Nat) :
    write_leb128c out start v =
      (write_to_vec_solo out start (leb128Bytes v), (leb128Bytes v).length) := by
  rw [write_leb128c, write_unsigned_leb128_to_eq]
  simp

theorem write_leb128d_go_eq : ∀ v fuel (mem : List Nat) p,
    (leb128Bytes v).length ≤ fuel →
    p + (leb128Bytes v).length ≤ mem.length →
    write_leb128d_go fuel mem p v =
      (write_to_vec_solo mem p (leb128Bytes v), p + (leb128Bytes v).length) := by
  intro v
  induction v using Nat.strong_induction_on with
  | _ v ih =>
    intro fuel mem p hfuel hmem
    have hpos := leb128Bytes_length_pos v
    obtain ⟨f, rfl⟩ : ∃ f, fuel = f + 1 := ⟨fuel - 1, by omega⟩
    have hplt : p < mem.length := by omega
    by_cases h : v < 128
    · have hv7 : v >>> 7 = 0 := by rw [shiftRight_7]; omega
      have hbyte : v &&& 127 = v := by
        rw [land_127_eq_mod]
        omega
      have hc1 : ¬ (v >>> 7 ≠ 0) := fun hc => hc hv7
      simp only [write_leb128d_go]
      rw [if_neg hc1, if_pos hv7, hbyte, leb128Bytes_of_lt h]
      refine Prod.ext ?_ ?_
      · show mem.set p v = write_to_vec_solo mem p [v]
        rw [write_to_vec_solo_cons, write_to_vec_solo_nil, write_to_vec,
          if_neg (by omega)]
      · show p + 1 = p + [v].length
        simp
    · push_neg at h
      have hv7 : v >>> 7 = v / 128 := shiftRight_7 v
      have hne : ¬ v >>> 7 = 0 := by rw [hv7]; omega
      have hbyte : (v &&& 127) ||| 128 = v % 128 + 128 := by
        rw [land_127_eq_mod]
        have := or_mul_pow_add (a := v % 128) 1 7 (by omega)
        norm_num at this
        exact this
      have hlen : (leb128Bytes (v / 128)).length ≤ f := by
        rw [leb128Bytes_of_ge h] at hfuel
        simp at hfuel
        omega
      have hmem2 : p + 1 + (leb128Bytes (v / 128)).length ≤
          (mem.set p ((v &&& 127) ||| 128)).length := by
        rw [leb128Bytes_of_ge h] at hmem
        simp at hmem ⊢
        omega
      simp only [write_leb128d_go]
      rw [if_pos hne, if_neg hne, hv7,
        ih (v / 128) (Nat.div_lt_self (by omega) (by norm_num)) f _ _ hlen hmem2,
        leb128Bytes_of_ge h, hbyte]
      refine Prod.ext ?_ ?_
      · show write_to_vec_solo (mem.set p (v % 128 + 128)) (p + 1)
          (leb128Bytes (v / 128)) =
          write_to_vec_solo mem p ((v % 128 + 128) :: leb128Bytes (v / 128))
        rw [write_to_vec_solo_cons, write_to_vec, if_neg (by omega)]
      · show p + 1 + (leb128Bytes (v / 128)).length =
          p + ((v % 128 + 128) :: leb128Bytes (v / 128)).length
        simp
        omega

theorem write_leb128d_eq (w : Width) (junk out : List Nat) (start v : Nat)
    (hs : start ≤ out.length) (hn : (leb128Bytes v).length ≤ leb128_size w)
    (hj : leb128_size w ≤ junk.length) :
    write_leb128d w junk out start v =
      (write_to_vec_solo out start (leb128Bytes v), (leb128Bytes v).length) := by
  have hmem : start + (leb128Bytes v).length ≤ (out ++ junk).length := by
    simp
    omega
  have hgo := write_leb128d_go_eq v (leb128_size w) (out ++ junk) start hn hmem
  unfold write_leb128d
  try dsimp only
  rw [hgo]
  try dsimp only
  have hcnt : start + (leb128Bytes v).length - start = (leb128Bytes v).length := by
    omega
  rw [hcnt]
  refine Prod.ext ?_ ?_
  swap
  · rfl
  show List.take _ (write_to_vec_solo (out ++ junk) start (leb128Bytes v)) =
    write_to_vec_solo out start (leb128Bytes v)
  have hfl : (if start = out.length then
        out.length + (leb128Bytes v).length
      else out.length + ((leb128Bytes v).length - (out.length - start))) =
      max out.length (start + (leb128Bytes v).length) := by
    split <;> omega
  rw [hfl, write_to_vec_solo_eq _ _ _ (by simp; omega),
    write_to_vec_solo_eq _ _ _ hs]
  have h1 : (out ++ junk).take start = out.take start := by
    rw [List.take_append_eq_append_take]
    have h0 : start - out.length = 0 := by omega
    rw [h0]
    simp
  have h2 : (out ++ junk).drop (start + (leb128Bytes v).length) =
      out.drop (start + (leb128Bytes v).length) ++
        junk.drop (start + (leb128Bytes v).length - out.length) :=
    List.drop_append_eq_append_drop
  rw [h1, h2]
  have hgrp : out.take start ++ leb128Bytes v ++
      (out.drop (start + (leb128Bytes v).length) ++
        junk.drop (start + (leb128Bytes v).length - out.length)) =
      (out.take start ++ leb128Bytes v ++ out.drop (start + (leb128Bytes v).length)) ++
        junk.drop (start + (leb128Bytes v).length - out.length) := by
    simp [List.append_assoc]
  rw [hgrp, List.take_append_eq_append_take]
  have hlen3 : (out.take start ++ leb128Bytes v ++
      out.drop (start + (leb128Bytes v).length)).length =
      max out.length (start + (leb128Bytes v).length) := by
    simp
    omega
  rw [List.take_of_length_le (le_of_eq_of_le hlen3 le_rfl), hlen3]
  have h0 : max out.length (start + (leb128Bytes v).length) -
      max out.length (start + (leb128Bytes v).length) = 0 := by omega
  rw [h0]
  simp

/-! ## Slice writer facts -/

theorem write_slice_to_vec_cold_eq :
    write_slice_to_vec_cold = write_slice_to_vec := rfl

theorem write_slice_to_vec_none_iff (out : List Nat) (p : Nat) (s : List Nat) :
    write_slice_to_vec out p s = none ↔
      0 < s.length ∧ s.length < out.length - p := by
  unfold write_slice_to_vec
  try dsimp only
  by_cases h1 : 0 < min (out.length - p) s.length
  · rw [if_pos h1]
    by_cases h2 : out.length - p = min (out.length - p) s.length
    · rw [if_pos h2]
      simp
      omega
    · rw [if_neg h2]
      simp
      omega
  · rw [if_neg h1]
    simp
    omega

theorem write_slice_to_vec_some_eq (out : List Nat) (p : Nat) (s : List Nat)
    (hp : p ≤ out.length) (hc : s.length = 0 ∨ out.length - p ≤ s.length) :
    write_slice_to_vec out p s =
      some (out.take p ++ s ++ out.drop (p + s.length)) := by
  by_cases hnil : s = []
  · subst hnil
    unfold write_slice_to_vec
    simp [List.take_append_drop]
  · have hs : 0 < s.length := List.length_pos.mpr hnil
    have hcap : out.length - p ≤ s.length := by omega
    unfold write_slice_to_vec
    try dsimp only
    by_cases hc0 : out.length - p = 0
    · have hmin : min (out.length - p) s.length = 0 := by omega
      rw [hmin]
      rw [if_neg (by omega)]
      rw [if_pos (by omega : (0:Nat) < s.length)]
      have hpe : p = out.length := by omega
      subst hpe
      rw [List.take_of_length_le le_rfl,
        List.drop_eq_nil_of_le (show out.length ≤ out.length + s.length by omega),
        List.drop_zero]
      simp
    · have hmin : min (out.length - p) s.length = out.length - p := by omega
      rw [hmin, if_pos (by omega), if_pos rfl]
      by_cases hlt : out.length - p < s.length
      · rw [if_pos hlt]
        rw [List.drop_eq_nil_of_le (show out.length ≤ p + s.length by omega)]
        simp [List.append_assoc]
      · rw [if_neg hlt]
        have hse : out.length - p = s.length := by omega
        rw [hse, List.take_of_length_le le_rfl,
          List.drop_eq_nil_of_le (show out.length ≤ p + s.length by omega)]
        simp

theorem write_slice_to_vec_skewed_eq (out : List Nat) (p : Nat) (s : List Nat) :
    write_slice_to_vec_skewed out p s = write_slice_to_vec out p s := by
  unfold write_slice_to_vec_skewed
  by_cases h : p = out.length
  · rw [if_pos h]
    subst h
    unfold write_slice_to_vec
    try dsimp only
    rcases s with _ | ⟨a, t⟩
    · simp
    · simp
  · rw [if_neg h, write_slice_to_vec_cold_eq]

/-! ## Decoder characterizations -/

theorem land127_cont {x : Nat} (h : x < 128) : (x + 128) &&& 127 = x := by
  rw [land_127_eq_mod]
  omega

theorem land127_term {x : Nat} (h : x < 128) : x &&& 127 = x := by
  rw [land_127_eq_mod]
  omega

theorem pow_shift7 (shift : Nat) : (2:Nat) ^ (shift + 7) = 128 * 2 ^ shift := by
  rw [pow_add]
  ring

theorem chunk_acc_lt {acc shift v : Nat} (hacc : acc < 2 ^ shift) (hv : 128 ≤ v) :
    acc + v % 128 * 2 ^ shift < 2 ^ (shift + 7) := by
  have h1 : v % 128 * 2 ^ shift ≤ 127 * 2 ^ shift :=
    Nat.mul_le_mul_right _ (by omega)
  rw [pow_shift7]
  omega

theorem chunk_val_lt {v shift e : Nat} (hv : v * 2 ^ shift < 2 ^ e) (h : 128 ≤ v) :
    v / 128 * 2 ^ (shift + 7) < 2 ^ e := by
  have h1 : v / 128 * 2 ^ (shift + 7) = (v / 128 * 128) * 2 ^ shift := by
    rw [pow_shift7]
    ring
  have h2 : v / 128 * 128 ≤ v := Nat.div_mul_le_self v 128
  calc v / 128 * 2 ^ (shift + 7) ≤ v * 2 ^ shift := by
        rw [h1]
        exact Nat.mul_le_mul_right _ h2
  _ < 2 ^ e := hv

theorem chunk_mod_small {v shift e : Nat} (hv : v * 2 ^ shift < 2 ^ e) :
    v % 128 * 2 ^ shift % 2 ^ e = v % 128 * 2 ^ shift := by
  apply Nat.mod_eq_of_lt
  calc v % 128 * 2 ^ shift ≤ v * 2 ^ shift :=
    Nat.mul_le_mul_right _ (Nat.mod_le v 128)
  _ < 2 ^ e := hv

theorem chunk_sum {acc v shift : Nat} (h : 128 ≤ v) :
    acc + v % 128 * 2 ^ shift + v / 128 * 2 ^ (shift + 7) = acc + v * 2 ^ shift := by
  have hsplit : v % 128 + 128 * (v / 128) = v := Nat.mod_add_div v 128
  have h1 : v / 128 * 2 ^ (shift + 7) = 128 * (v / 128) * 2 ^ shift := by
    rw [pow_shift7]
    ring
  calc acc + v % 128 * 2 ^ shift + v / 128 * 2 ^ (shift + 7)
      = acc + (v % 128 + 128 * (v / 128)) * 2 ^ shift := by rw [h1]; ring
  _ = acc + v * 2 ^ shift := by rw [hsplit]

theorem shift7_lt_of_cont {v shift e : Nat} (hv : v * 2 ^ shift < 2 ^ e)
    (h : 128 ≤ v) : shift + 7 < e := by
  by_contra hc
  push_neg at hc
  have h1 : (2:Nat) ^ e ≤ 2 ^ (shift + 7) := Nat.pow_le_pow_right (by norm_num) hc
  have h2 : (2:Nat) ^ (shift + 7) = 128 * 2 ^ shift := pow_shift7 shift
  have h3 : 128 * 2 ^ shift ≤ v * 2 ^ shift := Nat.mul_le_mul_right _ h
  omega

theorem read_unsigned_leb128_ref_go_eq : ∀ v shift acc (rest : List Nat),
    acc < 2 ^ shift → v * 2 ^ shift < 2 ^ 128 → shift < 128 →
    read_unsigned_leb128_ref_go (leb128Bytes v ++ rest) shift acc =
      some (acc + v * 2 ^ shift, (leb128Bytes v).length) := by
  intro v
  induction v using Nat.strong_induction_on with
  | _ v ih =>
    intro shift acc rest hacc hv hshift
    by_cases h : v < 128
    · rw [leb128Bytes_of_lt h]
      simp only [List.cons_append, List.nil_append, read_unsigned_leb128_ref_go]
      rw [if_neg (by omega), land127_term h, land_128_of_lt h, if_pos rfl,
        shiftLeft_mul, Nat.mod_eq_of_lt hv, or_mul_pow_add v shift hacc]
      simp
    · push_neg at h
      have hm : v % 128 < 128 := Nat.mod_lt _ (by norm_num)
      rw [leb128Bytes_of_ge h]
      simp only [List.cons_append, read_unsigned_leb128_ref_go, List.append_eq]
      rw [if_neg (by omega), land127_cont hm, land_128_of_add hm,
        if_neg (by norm_num), shiftLeft_mul, chunk_mod_small hv,
        or_mul_pow_add _ shift hacc]
      rw [ih (v / 128) (Nat.div_lt_self (by omega) (by norm_num)) (shift + 7)
        (acc + v % 128 * 2 ^ shift) rest (chunk_acc_lt hacc h)
        (chunk_val_lt hv h) (shift7_lt_of_cont hv h)]
      simp only []
      rw [chunk_sum h]
      simp

theorem read_leb128_fixed_go_eq : ∀ v e fuel shift acc (rest : List Nat),
    (leb128Bytes v).length ≤ fuel → acc < 2 ^ shift → v * 2 ^ shift < 2 ^ e →
    read_leb128_fixed_go e fuel (leb128Bytes v ++ rest) shift acc =
      some (acc + v * 2 ^ shift, (leb128Bytes v).length) := by
  intro v
  induction v using Nat.strong_induction_on with
  | _ v ih =>
    intro e fuel shift acc rest hfuel hacc hv
    have hpos := leb128Bytes_length_pos v
    obtain ⟨f, rfl⟩ : ∃ f, fuel = f + 1 := ⟨fuel - 1, by omega⟩
    by_cases h : v < 128
    · rw [leb128Bytes_of_lt h]
      simp only [List.cons_append, List.nil_append, read_leb128_fixed_go]
      rw [land127_term h, land_128_of_lt h, if_pos rfl, shiftLeft_mul,
        Nat.mod_eq_of_lt (by
          calc v * 2 ^ shift ≤ v * 2 ^ shift := le_rfl
          _ < 2 ^ e := hv),
        or_mul_pow_add v shift hacc]
      simp
    · push_neg at h
      have hm : v % 128 < 128 := Nat.mod_lt _ (by norm_num)
      have hlen : (leb128Bytes (v / 128)).length ≤ f := by
        rw [leb128Bytes_of_ge h] at hfuel
        simp at hfuel
        omega
      rw [leb128Bytes_of_ge h]
      simp only [List.cons_append, read_leb128_fixed_go, List.append_eq]
      rw [land127_cont hm, land_128_of_add hm, if_neg (by norm_num),
        shiftLeft_mul, chunk_mod_small hv, or_mul_pow_add _ shift hacc]
      rw [ih (v / 128) (Nat.div_lt_self (by omega) (by norm_num)) e f (shift + 7)
        (acc + v % 128 * 2 ^ shift) rest hlen (chunk_acc_lt hacc h)
        (chunk_val_lt hv h)]
      simp only []
      rw [chunk_sum h]
      simp

theorem read_leb128_weird_go_last : ∀ fuel e (data : List Nat) p shift acc byte,
    data[p]? = some byte → byte < 128 → shift < e → 1 ≤ fuel →
    read_leb128_weird_go e fuel data p shift acc =
      some (acc ||| ((byte &&& 127) <<< shift) % 2 ^ e, p) := by
  intro fuel
  induction fuel with
  | zero =>
    intro e data p shift acc byte _ _ _ hf
    omega
  | succ f ih =>
    intro e data p shift acc byte hget hlt hshift _
    have hmult : byte >>> 7 = 0 := by rw [shiftRight_7]; omega
    simp only [read_leb128_weird_go]
    rw [hget]
    simp only [hmult, Nat.add_zero, Nat.mul_zero]
    rw [if_neg (by omega)]
    rcases Nat.eq_zero_or_pos f with hf | hf
    · subst hf
      simp [read_leb128_weird_go]
    · rw [ih e data p shift (acc ||| ((byte &&& 127) <<< shift) % 2 ^ e) byte hget
        hlt hshift hf, Nat.or_assoc, Nat.or_self]

theorem read_leb128_weird_go_eq : ∀ v e fuel (data : List Nat) p shift acc
    (rest : List Nat),
    data.drop p = leb128Bytes v ++ rest → (leb128Bytes v).length ≤ fuel →
    acc < 2 ^ shift → v * 2 ^ shift < 2 ^ e → shift < e →
    read_leb128_weird_go e fuel data p shift acc =
      some (acc + v * 2 ^ shift, p + (leb128Bytes v).length - 1) := by
  intro v
  induction v using Nat.strong_induction_on with
  | _ v ih =>
    intro e fuel data p shift acc rest hdrop hfuel hacc hv hshift
    have hpos := leb128Bytes_length_pos v
    have hget : data[p]? = (leb128Bytes v ++ rest)[0]? := by
      rw [← hdrop, List.getElem?_drop, Nat.add_zero]
    by_cases h : v < 128
    · rw [leb128Bytes_of_lt h] at hget hdrop ⊢
      have hget2 : data[p]? = some v := by
        rw [hget]
        simp
      rw [read_leb128_weird_go_last fuel e data p shift acc v hget2 h hshift
        (by omega)]
      rw [land127_term h, shiftLeft_mul, Nat.mod_eq_of_lt hv,
        or_mul_pow_add v shift hacc]
      simp
    · push_neg at h
      have hm : v % 128 < 128 := Nat.mod_lt _ (by norm_num)
      rw [leb128Bytes_of_ge h] at hget hdrop hfuel ⊢
      have hget2 : data[p]? = some (v % 128 + 128) := by
        rw [hget]
        simp
      have hmult : (v % 128 + 128) >>> 7 = 1 := by
        rw [shiftRight_7]
        omega
      obtain ⟨f, rfl⟩ : ∃ f, fuel = f + 1 := ⟨fuel - 1, by simp at hfuel; omega⟩
      simp only [read_leb128_weird_go]
      rw [hget2]
      simp only [hmult, Nat.mul_one]
      rw [if_neg (by omega), land127_cont hm, shiftLeft_mul, chunk_mod_small hv,
        or_mul_pow_add _ shift hacc]
      have hdrop2 : data.drop (p + 1) = leb128Bytes (v / 128) ++ rest := by
        have hc : data.drop (p + 1) = (data.drop p).drop 1 := by
          rw [List.drop_drop]
        rw [hc, hdrop]
        simp
      have hlen : (leb128Bytes (v / 128)).length ≤ f := by
        simp at hfuel
        omega
      rw [ih (v / 128) (Nat.div_lt_self (by omega) (by norm_num)) e f data (p + 1)
        (shift + 7) (acc + v % 128 * 2 ^ shift) rest hdrop2 hlen
        (chunk_acc_lt hacc h) (chunk_val_lt hv h) (shift7_lt_of_cont hv h)]
      rw [chunk_sum h]
      have hcnt : p + 1 + (leb128Bytes (v / 128)).length - 1 =
          p + (leb128Bytes (v / 128)).length := by
        have := leb128Bytes_length_pos (v / 128)
        omega
      rw [hcnt]
      simp

/-! ## Decoder wrappers on a canonical encoding -/

theorem lt_two_pow_128 {w : Width} {v : Nat} (hv : v < 2 ^ bits w) : v < 2 ^ 128 :=
  lt_of_lt_of_le hv (Nat.pow_le_pow_right (by norm_num) (bits_le_128 w))

theorem read_leb128_ref_eq (w : Width) (v : Nat) (rest : List Nat)
    (hv : v < 2 ^ bits w) :
    read_leb128_ref w (leb128Bytes v ++ rest) 0 =
      some (v, (leb128Bytes v).length) := by
  unfold read_leb128_ref
  rw [List.drop_zero, read_unsigned_leb128_ref_go_eq v 0 0 rest (by norm_num)
    (by simpa using lt_two_pow_128 hv) (by norm_num)]
  simp [Nat.mod_eq_of_lt hv]

theorem read_leb128_fixed_eq (w : Width) (v : Nat) (rest : List Nat)
    (hv : v < 2 ^ bits w) :
    read_leb128_fixed w (leb128Bytes v ++ rest) 0 =
      some (v, (leb128Bytes v).length) := by
  unfold read_leb128_fixed
  rw [List.drop_zero, read_leb128_fixed_go_eq v 128 (leb128_size w) 0 0 rest
    (leb128Bytes_length_le hv) (by norm_num) (by simpa using lt_two_pow_128 hv)]
  simp [Nat.mod_eq_of_lt hv]

theorem read_leb128_fixed2_eq (w : Width) (v : Nat) (rest : List Nat)
    (hv : v < 2 ^ bits w) :
    read_leb128_fixed2 w (leb128Bytes v ++ rest) 0 =
      some (v, (leb128Bytes v).length) := by
  unfold read_leb128_fixed2
  rw [List.drop_zero, read_leb128_fixed_go_eq v (bits w) (leb128_size w) 0 0 rest
    (leb128Bytes_length_le hv) (by norm_num) (by simpa using hv)]
  simp

theorem read_leb128_unchecked_eq (w : Width) (v : Nat) (rest : List Nat)
    (hv : v < 2 ^ bits w) :
    read_leb128_unchecked w (leb128Bytes v ++ rest) 0 =
      some (v, (leb128Bytes v).length) := by
  unfold read_leb128_unchecked
  rw [List.drop_zero, read_leb128_fixed_go_eq v (bits w) (leb128_size w) 0 0 rest
    (leb128Bytes_length_le hv) (by norm_num) (by simpa using hv)]
  simp

theorem read_leb128_weird_eq (w : Width) (v : Nat) (rest : List Nat)
    (hv : v < 2 ^ bits w) :
    read_leb128_weird w (leb128Bytes v ++ rest) 0 =
      some (v, (leb128Bytes v).length) := by
  unfold read_leb128_weird
  have hb0 : 0 < bits w := by cases w <;> norm_num [bits]
  have hpos := leb128Bytes_length_pos v
  rw [read_leb128_weird_go_eq v (bits w) (leb128_size w) (leb128Bytes v ++ rest)
    0 0 0 rest (by simp) (leb128Bytes_length_le hv) (by norm_num)
    (by simpa using hv) hb0]
  have h1 : 0 + v * 2 ^ 0 = v := by simp
  have h2 : 0 + (leb128Bytes v).length - 1 + 1 = (leb128Bytes v).length := by omega
  simp only [h1]
  rw [if_pos (by simp; omega)]
  rw [h2]
  simp

/-- All five decoder strategies, applied at position 0 to a canonical
encoding of a value of the width, return the value and its byte count. -/
theorem runDec_eq (D : Dec) (w : Width) (v : Nat) (rest : List Nat)
    (hv : v < 2 ^ bits w) :
    runDec D w (leb128Bytes v ++ rest) 0 = some (v, (leb128Bytes v).length) := by
  cases D with
  | ref => exact read_leb128_ref_eq w v rest hv
  | fixed => exact read_leb128_fixed_eq w v rest hv
  | fixed2 => exact read_leb128_fixed2_eq w v rest hv
  | unchecked => exact read_leb128_unchecked_eq w v rest hv
  | weird => exact read_leb128_weird_eq w v rest hv

/-- All four encoder strategies at start position 0 into an empty buffer
produce exactly the canonical bytes and return their count. -/
theorem runEnc_nil (E : Enc) (w : Width) (junk : List Nat) (v : Nat)
    (hv : v < 2 ^ bits w) (hj : leb128_size w ≤ junk.length) :
    runEnc E w junk [] 0 v = (leb128Bytes v, (leb128Bytes v).length) := by
  have hsolo : write_to_vec_solo [] 0 (leb128Bytes v) = leb128Bytes v := by
    rw [write_to_vec_solo_eq _ _ _ (by simp)]
    simp
  cases E with
  | a => rw [runEnc, write_leb128a_eq, hsolo]
  | b => rw [runEnc, write_leb128b_eq w _ _ _ (leb128Bytes_length_le hv), hsolo]
  | c => rw [runEnc, write_leb128c_eq, hsolo]
  | d =>
    rw [runEnc, write_leb128d_eq w junk [] 0 v (by simp)
      (leb128Bytes_length_le hv) hj, hsolo]

/-! ## Remaining helper facts -/

theorem runEnc_snd (E : Enc) (w : Width) (junk out : List Nat) (start v : Nat)
    (hs : start ≤ out.length) (hv : v < 2 ^ bits w)
    (hj : leb128_size w ≤ junk.length) :
    (runEnc E w junk out start v).2 = (leb128Bytes v).length := by
  have hn := leb128Bytes_length_le hv
  cases E with
  | a =>
    show (write_leb128a out start v).2 = _
    rw [write_leb128a_eq]
  | b =>
    show (write_leb128b w out start v).2 = _
    rw [write_leb128b_eq w _ _ _ hn]
  | c =>
    show (write_leb128c out start v).2 = _
    rw [write_leb128c_eq]
  | d =>
    show (write_leb128d w junk out start v).2 = _
    rw [write_leb128d_eq w _ _ _ _ hs hn hj]

theorem leb128Bytes_128 : leb128Bytes 128 = [128, 1] := by
  rw [leb128Bytes_of_ge (by norm_num), leb128Bytes_of_lt (by norm_num)]

theorem bit_length_two_pow_sub_one {b : Nat} (hb : 0 < b) :
    bit_length (2 ^ b - 1) = b := by
  have hp : 0 < (2:Nat) ^ b := Nat.two_pow_pos b
  have h1 : bit_length (2 ^ b - 1) ≤ b := (bit_length_le_iff _ b).mpr (by omega)
  have h2 : ¬ bit_length (2 ^ b - 1) ≤ b - 1 := by
    intro hc
    have h3 := (bit_length_le_iff _ (b - 1)).mp hc
    have hb2 : b = (b - 1) + 1 := by omega
    have h4 : (2:Nat) ^ b = 2 ^ (b - 1) * 2 := by
      conv_lhs => rw [hb2]
      rw [pow_succ]
    have h5 : 0 < (2:Nat) ^ (b - 1) := Nat.two_pow_pos _
    omega
  omega

theorem leb128Bytes_length_max (w : Width) :
    (leb128Bytes (2 ^ bits w - 1)).length = leb128_size w := by
  rw [leb128Bytes_length_eq,
    bit_length_two_pow_sub_one (by cases w <;> norm_num [bits])]
  cases w <;> norm_num [bits, leb128_size]

/-! ## Claim theorems -/

/-- C1: for every width, every value of that width and every byte slice
produced by any encoder strategy at position 0 into an empty buffer, all
five decoder strategies applied at position 0 return the identical pair
`(value, bytes_read)` with `value = v`. -/
theorem leb128_cross_agreement (w : Width) (v : Nat) (E : Enc) (D D' : Dec)
    (junk : List Nat) (hv : v < 2 ^ bits w) (hj : leb128_size w ≤ junk.length) :
    runDec D w (runEnc E w junk [] 0 v).1 0 =
      runDec D' w (runEnc E w junk [] 0 v).1 0 ∧
    runDec D w (runEnc E w junk [] 0 v).1 0 =
      some (v, (leb128Bytes v).length) := by
  have he := runEnc_nil E w junk v hv hj
  have hd : ∀ D0 : Dec, runDec D0 w (runEnc E w junk [] 0 v).1 0 =
      some (v, (leb128Bytes v).length) := by
    intro D0
    rw [he]
    simpa using runDec_eq D0 w v [] hv
  exact ⟨(hd D).trans (hd D').symm, hd D⟩

theorem leb128_cross_agreement_witness :
    ((300:Nat) < 2 ^ bits Width.u32 ∧
      leb128_size Width.u32 ≤ (List.replicate 5 0).length) ∧
    (runDec Dec.weird Width.u32
        (runEnc Enc.b Width.u32 (List.replicate 5 0) [] 0 300).1 0 =
      runDec Dec.ref Width.u32
        (runEnc Enc.b Width.u32 (List.replicate 5 0) [] 0 300).1 0 ∧
    runDec Dec.weird Width.u32
        (runEnc Enc.b Width.u32 (List.replicate 5 0) [] 0 300).1 0 =
      some (300, (leb128Bytes 300).length)) :=
  ⟨⟨by decide, by decide⟩,
    leb128_cross_agreement Width.u32 300 Enc.b Dec.weird Dec.ref
      (List.replicate 5 0) (by decide) (by decide)⟩

/-- C2: round-trip — encoding any value of a width into an empty buffer at
position 0 with any encoder strategy and decoding the result at position 0
with any decoder strategy yields exactly the value and the byte count the
encoder returned. -/
theorem leb128_round_trip (w : Width) (v : Nat) (E : Enc) (D : Dec)
    (junk : List Nat) (hv : v < 2 ^ bits w) (hj : leb128_size w ≤ junk.length) :
    runDec D w (runEnc E w junk [] 0 v).1 0 =
      some (v, (runEnc E w junk [] 0 v).2) := by
  rw [runEnc_nil E w junk v hv hj]
  simpa using runDec_eq D w v [] hv

theorem leb128_round_trip_witness :
    ((300:Nat) < 2 ^ bits Width.u32 ∧
      leb128_size Width.u32 ≤ (List.replicate 5 0).length) ∧
    runDec Dec.fixed2 Width.u32
        (runEnc Enc.d Width.u32 (List.replicate 5 0) [] 0 300).1 0 =
      some (300, (runEnc Enc.d Width.u32 (List.replicate 5 0) [] 0 300).2) :=
  ⟨⟨by decide, by decide⟩,
    leb128_round_trip Width.u32 300 Enc.d Dec.fixed2 (List.replicate 5 0)
      (by decide) (by decide)⟩

/-- C3 counterexample: at buffer `[9]`, start position 1 (which does not
exceed the buffer length) and value 5 of width u16, the fixed-iteration
encoder (which starts writing at absolute offset 0) produces a different
final buffer than the reference encoder, so the four encoder strategies do
not agree at every start position. -/
theorem encoder_agreement_counterexample :
    runEnc Enc.b Width.u16 [] [9] 1 5 ≠ runEnc Enc.a Width.u16 [] [9] 1 5 := by
  have ha : runEnc Enc.a Width.u16 [] [9] 1 5 = ([9, 5], 1) := by
    show write_leb128a [9] 1 5 = _
    rw [write_leb128a_eq, leb128Bytes_of_lt (by norm_num)]
    decide
  have hb : runEnc Enc.b Width.u16 [] [9] 1 5 = ([5], 1) := by decide
  rw [ha, hb]
  decide

/-- C3 amended: the reference, callback and unchecked encoder strategies
write the same bytes at the same positions, leave identical final buffer
contents and return the same count for every value of the width and every
start position not exceeding the buffer length; the fixed-iteration
strategy ignores its start position and agrees with the others only in the
form that its output always equals theirs at start position 0. -/
theorem encoder_agreement_amended (w : Width) (junk out : List Nat)
    (start v : Nat) (hs : start ≤ out.length) (hv : v < 2 ^ bits w)
    (hj : leb128_size w ≤ junk.length) :
    runEnc Enc.a w junk out start v = runEnc Enc.c w junk out start v ∧
    runEnc Enc.a w junk out start v = runEnc Enc.d w junk out start v ∧
    runEnc Enc.b w junk out start v = runEnc Enc.a w junk out 0 v := by
  have hn := leb128Bytes_length_le hv
  refine ⟨?_, ?_, ?_⟩
  · show write_leb128a out start v = write_leb128c out start v
    rw [write_leb128a_eq, write_leb128c_eq]
  · show write_leb128a out start v = write_leb128d w junk out start v
    rw [write_leb128a_eq, write_leb128d_eq w junk out start v hs hn hj]
  · show write_leb128b w out start v = write_leb128a out 0 v
    rw [write_leb128b_eq w out start v hn, write_leb128a_eq]

theorem encoder_agreement_amended_witness :
    ((1:Nat) ≤ ([7] : List Nat).length ∧ (300:Nat) < 2 ^ bits Width.u16 ∧
      leb128_size Width.u16 ≤ ([0, 0, 0] : List Nat).length) ∧
    (runEnc Enc.a Width.u16 [0, 0, 0] [7] 1 300 =
      runEnc Enc.c Width.u16 [0, 0, 0] [7] 1 300 ∧
    runEnc Enc.a Width.u16 [0, 0, 0] [7] 1 300 =
      runEnc Enc.d Width.u16 [0, 0, 0] [7] 1 300 ∧
    runEnc Enc.b Width.u16 [0, 0, 0] [7] 1 300 =
      runEnc Enc.a Width.u16 [0, 0, 0] [7] 0 300) :=
  ⟨⟨by decide, by decide, by decide⟩,
    encoder_agreement_amended Width.u16 [0, 0, 0] [7] 1 300 (by decide)
      (by decide) (by decide)⟩

/-- C4: every encoder strategy, applied at a start position not exceeding
the buffer length to a value of its width, returns exactly
`max 1 (ceil(bit_length v / 7))` bytes written. -/
theorem encoded_length_eq (E : Enc) (w : Width) (junk out : List Nat)
    (start v : Nat) (hs : start ≤ out.length) (hv : v < 2 ^ bits w)
    (hj : leb128_size w ≤ junk.length) :
    (runEnc E w junk out start v).2 = max 1 ((bit_length v + 6) / 7) := by
  rw [runEnc_snd E w junk out start v hs hv hj, leb128Bytes_length_eq]

theorem encoded_length_eq_witness :
    ((0:Nat) ≤ ([] : List Nat).length ∧ (300:Nat) < 2 ^ bits Width.u64 ∧
      leb128_size Width.u64 ≤ (List.replicate 10 0).length) ∧
    (runEnc Enc.a Width.u64 (List.replicate 10 0) [] 0 300).2 =
      max 1 ((bit_length 300 + 6) / 7) :=
  ⟨⟨by decide, by decide, by decide⟩,
    encoded_length_eq Enc.a Width.u64 (List.replicate 10 0) [] 0 300
      (by decide) (by decide) (by decide)⟩

/-- C5 counterexample: at buffer `[0,0]`, start position 0 and input `[1]`
(non-empty and shorter than the allocated remainder), the split-copy and
skewed writers panic (`copy_from_slice` length mismatch, modelled `none`)
while the byte-at-a-time writer completes, so the three variants do not all
complete without panicking. -/
theorem positioned_writers_counterexample :
    write_slice_to_vec [0, 0] 0 [1] = none ∧
    write_slice_to_vec_skewed [0, 0] 0 [1] = none ∧
    write_to_vec_solo [0, 0] 0 [1] = [1, 0] := by
  refine ⟨by decide, by decide, by decide⟩

/-- C5 amended: for every start position not exceeding the buffer length,
the byte-at-a-time writer always completes and yields the contents the
claim describes (input at `[p, p+len)`, existing bytes overwritten,
remainder appended); the skewed writer behaves exactly like the split-copy
writer; and whenever the input is empty or covers the whole allocated
remainder (the cases in which the split-copy writer does not panic) all
three produce identical final contents.  The split-copy (and hence skewed)
writer panics exactly when `0 < input length < buffer length - p`. -/
theorem positioned_writers_amended (out : List Nat) (p : Nat) (s : List Nat)
    (hp : p ≤ out.length) :
    write_to_vec_solo out p s = out.take p ++ s ++ out.drop (p + s.length) ∧
    write_slice_to_vec_skewed out p s = write_slice_to_vec out p s ∧
    (s.length = 0 ∨ out.length - p ≤ s.length →
      write_slice_to_vec out p s = some (write_to_vec_solo out p s) ∧
      write_slice_to_vec_skewed out p s = some (write_to_vec_solo out p s)) ∧
    (write_slice_to_vec out p s = none ↔
      0 < s.length ∧ s.length < out.length - p) := by
  have hsolo := write_to_vec_solo_eq s out p hp
  have hsk := write_slice_to_vec_skewed_eq out p s
  refine ⟨hsolo, hsk, ?_, write_slice_to_vec_none_iff out p s⟩
  intro hc
  have hsome := write_slice_to_vec_some_eq out p s hp hc
  constructor
  · rw [hsome, hsolo]
  · rw [hsk, hsome, hsolo]

theorem positioned_writers_amended_witness :
    ((1:Nat) ≤ ([7, 7] : List Nat).length ∧
      (([7, 7] : List Nat).length - 1 ≤ ([1, 2, 3] : List Nat).length)) ∧
    (write_to_vec_solo [7, 7] 1 [1, 2, 3] =
      List.take 1 [7, 7] ++ [1, 2, 3] ++ List.drop (1 + 3) [7, 7] ∧
    write_slice_to_vec_skewed [7, 7] 1 [1, 2, 3] =
      write_slice_to_vec [7, 7] 1 [1, 2, 3] ∧
    (([1, 2, 3] : List Nat).length = 0 ∨
        ([7, 7] : List Nat).length - 1 ≤ ([1, 2, 3] : List Nat).length →
      write_slice_to_vec [7, 7] 1 [1, 2, 3] =
        some (write_to_vec_solo [7, 7] 1 [1, 2, 3]) ∧
      write_slice_to_vec_skewed [7, 7] 1 [1, 2, 3] =
        some (write_to_vec_solo [7, 7] 1 [1, 2, 3])) ∧
    (write_slice_to_vec [7, 7] 1 [1, 2, 3] = none ↔
      0 < ([1, 2, 3] : List Nat).length ∧
        ([1, 2, 3] : List Nat).length < ([7, 7] : List Nat).length - 1)) :=
  ⟨⟨by decide, by decide⟩, positioned_writers_amended [7, 7] 1 [1, 2, 3] (by decide)⟩

/-- C6: boundary values — with any encoder strategy at position 0 into an
empty buffer, 0 encodes as the single byte 0x00, 127 as one byte, 128 as
`[0x80, 0x01]`, and the maximum value of each width uses exactly the
statically known maximum byte count; additionally `write_leb128b_u32_solo`
encodes 300 as `[0xAC, 0x02]` returning 2, and every decoder strategy on
those two bytes at position 0 returns `(300, 2)`. -/
theorem leb128_boundary_values :
    (∀ (w : Width) (E : Enc) (junk : List Nat), leb128_size w ≤ junk.length →
      runEnc E w junk [] 0 0 = ([0], 1) ∧
      (runEnc E w junk [] 0 127).2 = 1 ∧
      runEnc E w junk [] 0 128 = ([0x80, 0x01], 2) ∧
      (runEnc E w junk [] 0 (2 ^ bits w - 1)).2 = leb128_size w) ∧
    write_leb128b Width.u32 [] 0 300 = ([0xAC, 0x02], 2) ∧
    (∀ D : Dec, runDec D Width.u32 [0xAC, 0x02] 0 = some (300, 2)) := by
  refine ⟨?_, by decide, ?_⟩
  · intro w E junk hj
    have hb16 : (127:Nat) < 2 ^ bits w ∧ (128:Nat) < 2 ^ bits w := by
      cases w <;> norm_num [bits]
    have hmax : 2 ^ bits w - 1 < 2 ^ bits w := by
      have := Nat.two_pow_pos (bits w)
      omega
    refine ⟨?_, ?_, ?_, ?_⟩
    · rw [runEnc_nil E w junk 0 (Nat.two_pow_pos _) hj,
        leb128Bytes_of_lt (by norm_num)]
      rfl
    · rw [runEnc_nil E w junk 127 hb16.1 hj, leb128Bytes_of_lt (by norm_num)]
      rfl
    · rw [runEnc_nil E w junk 128 hb16.2 hj, leb128Bytes_128]
      rfl
    · rw [runEnc_nil E w junk _ hmax hj, leb128Bytes_length_max]
  · intro D
    cases D <;> decide

theorem leb128_boundary_values_witness :
    (leb128_size Width.u16 ≤ ([0, 0, 0] : List Nat).length) ∧
    (runEnc Enc.a Width.u16 [0, 0, 0] [] 0 0 = ([0], 1) ∧
      (runEnc Enc.a Width.u16 [0, 0, 0] [] 0 127).2 = 1 ∧
      runEnc Enc.a Width.u16 [0, 0, 0] [] 0 128 = ([0x80, 0x01], 2) ∧
      (runEnc Enc.a Width.u16 [0, 0, 0] [] 0 (2 ^ bits Width.u16 - 1)).2 =
        leb128_size Width.u16) :=
  ⟨by decide, leb128_boundary_values.1 Width.u16 Enc.a [0, 0, 0] (by decide)⟩

/-- C7: lesqlite boundaries — 184 encodes as the single byte 0xB8 returning
1; 185 encodes as two bytes; every value up to `185 + 255 + 256*(249-1-185)`
(= 16568) encodes in at most two bytes; and the first value of the tagged
form, 16569, emits tag byte 249 followed by its little-endian significant
bytes. -/
theorem lesqlite_boundaries :
    impl_write_unsigned_lesqlite Width.u32 [] 0 184 = some ([0xB8], 1) ∧
    (∃ r, impl_write_unsigned_lesqlite Width.u32 [] 0 185 = some r ∧
      r.2 = 2) ∧
    (∀ v : Nat, v ≤ 185 + 255 + 256 * (249 - 1 - 185) →
      ∃ r, impl_write_unsigned_lesqlite Width.u32 [] 0 v = some r ∧
        r.2 ≤ 2) ∧
    impl_write_unsigned_lesqlite Width.u32 [] 0 16569 =
      some ([249, 0xB9, 0x40], 3) := by
  refine ⟨by decide, ⟨([0xB9, 0x00], 2), by decide, rfl⟩, ?_, by decide⟩
  intro v hv
  by_cases h1 : v < 185
  · refine ⟨(write_to_vec [] 0 (v % 256), 1), ?_, by norm_num⟩
    unfold impl_write_unsigned_lesqlite
    rw [if_pos h1]
  · refine ⟨(write_to_vec (write_to_vec [] 0
      ((185 + (v - 185) >>> 8 % 256) % 256)) 1 ((v - 185) % 256), 2), ?_, le_rfl⟩
    unfold impl_write_unsigned_lesqlite
    rw [if_neg h1, if_pos hv]

theorem lesqlite_boundaries_witness :
    ((16000:Nat) ≤ 185 + 255 + 256 * (249 - 1 - 185)) ∧
    (∃ r, impl_write_unsigned_lesqlite Width.u32 [] 0 16000 = some r ∧
      r.2 ≤ 2) :=
  ⟨by decide, lesqlite_boundaries.2.2.1 16000 (by decide)⟩

/-- C8: the unchecked/reserved-capacity encoder returns the number of bytes
it wrote, and the buffer's final logical length is `start + n` exactly when
that exceeds the initial length, and the initial length otherwise. -/
theorem write_leb128d_final_length (w : Width) (junk out : List Nat)
    (start v : Nat) (hs : start ≤ out.length) (hv : v < 2 ^ bits w)
    (hj : leb128_size w ≤ junk.length) :
    (write_leb128d w junk out start v).1.length =
      (if out.length < start + (write_leb128d w junk out start v).2 then
        start + (write_leb128d w junk out start v).2
      else out.length) := by
  rw [write_leb128d_eq w junk out start v hs (leb128Bytes_length_le hv) hj]
  show (write_to_vec_solo out start (leb128Bytes v)).length = _
  rw [write_to_vec_solo_length _ _ _ hs]
  split <;> omega

theorem write_leb128d_final_length_witness :
    ((1:Nat) ≤ ([7, 7, 7] : List Nat).length ∧ (300:Nat) < 2 ^ bits Width.u32 ∧
      leb128_size Width.u32 ≤ (List.replicate 5 9).length) ∧
    (write_leb128d Width.u32 (List.replicate 5 9) [7, 7, 7] 1 300).1.length =
      (if ([7, 7, 7] : List Nat).length <
          1 + (write_leb128d Width.u32 (List.replicate 5 9) [7, 7, 7] 1 300).2 then
        1 + (write_leb128d Width.u32 (List.replicate 5 9) [7, 7, 7] 1 300).2
      else ([7, 7, 7] : List Nat).length) :=
  ⟨⟨by decide, by decide, by decide⟩,
    write_leb128d_final_length Width.u32 (List.replicate 5 9) [7, 7, 7] 1 300
      (by decide) (by decide) (by decide)⟩

/-- C9: the fixed-iteration encoder writes the encoding bytes of the value
at absolute buffer offsets 0 through n−1 — its start position parameter has
no effect — and returns n. -/
theorem write_leb128b_absolute (w : Width) (out : List Nat)
    (start start' v : Nat) (hv : v < 2 ^ bits w) :
    write_leb128b w out start v =
      (write_to_vec_solo out 0 (leb128Bytes v), (leb128Bytes v).length) ∧
    write_leb128b w out start v = write_leb128b w out start' v :=
  ⟨write_leb128b_eq w out start v (leb128Bytes_length_le hv), rfl⟩

theorem write_leb128b_absolute_witness :
    ((300:Nat) < 2 ^ bits Width.u32) ∧
    (write_leb128b Width.u32 [7, 7, 7] 2 300 =
      (write_to_vec_solo [7, 7, 7] 0 (leb128Bytes 300),
        (leb128Bytes 300).length) ∧
    write_leb128b Width.u32 [7, 7, 7] 2 300 =
      write_leb128b Width.u32 [7, 7, 7] 0 300) :=
  ⟨by decide, write_leb128b_absolute Width.u32 [7, 7, 7] 2 0 300 (by decide)⟩

/-- C10: `write_slice_to_vec` panics exactly when the input is non-empty
and strictly shorter than the already-allocated region from the start
position; when it does not panic, the result is the input copied over the
positions starting at `p` with the remainder appended. -/
theorem write_slice_to_vec_panic_iff (out : List Nat) (p : Nat)
    (s : List Nat) (hp : p ≤ out.length) :
    (write_slice_to_vec out p s = none ↔
      0 < s.length ∧ s.length < out.length - p) ∧
    (∀ r, write_slice_to_vec out p s = some r →
      r = out.take p ++ s ++ out.drop (p + s.length)) := by
  refine ⟨write_slice_to_vec_none_iff out p s, ?_⟩
  intro r hr
  have hc : s.length = 0 ∨ out.length - p ≤ s.length := by
    by_contra hcon
    push_neg at hcon
    have hnone : write_slice_to_vec out p s = none :=
      (write_slice_to_vec_none_iff out p s).mpr (by omega)
    rw [hnone] at hr
    exact Option.noConfusion hr
  have hsome := write_slice_to_vec_some_eq out p s hp hc
  rw [hsome] at hr
  exact (Option.some.inj hr).symm

theorem write_slice_to_vec_panic_iff_witness :
    ((1:Nat) ≤ ([7, 7] : List Nat).length) ∧
    ((write_slice_to_vec [7, 7] 1 [1] = none ↔
      0 < ([1] : List Nat).length ∧
        ([1] : List Nat).length < ([7, 7] : List Nat).length - 1) ∧
    (∀ r, write_slice_to_vec [7, 7] 1 [1] = some r →
      r = List.take 1 [7, 7] ++ [1] ++ List.drop (1 + 1) [7, 7])) :=
  ⟨by decide, write_slice_to_vec_panic_iff [7, 7] 1 [1] (by decide)⟩

end EncodingBench
